import Mathlib

/-!
# Verification of the Kuato text chunker, library store and delivery sequencer

Shallow embedding of the core logic of the Kuato browser extension:

* `processAndSaveBook` / the chunking loop from `src/extension/background.js`
  (lines 106-170): chapter detection via the regular expression
  `/(?:^|\n\n)(Chapter\s+\d+|Part\s+\d+|Book\s+\d+)/gi` applied with
  `String.prototype.split`, then a greedy splitting loop driven by
  `String.prototype.lastIndexOf`.
* `updateBook` from `src/extension/background.js` (lines 59-68).
* The delivery state machine `sendChunk` / `sendNextChunkInSequence`
  from `src/extension/content.js` (lines 193-267).

Strings are embedded as `List Char`; JavaScript string indices become list
positions.  Recursion that consumes a non-constant number of characters per
step is written with an explicit fuel argument equal to the length of the
text being consumed, so that every definition is executable by the kernel;
lemmas below discharge the fuel whenever a claim needs the loop run to
completion.
-/

namespace Kuato

/-- The set of characters matched by JavaScript's `\s` (also the set removed
by `String.prototype.trim`): ASCII whitespace, NBSP, the Unicode space
separators, the line/paragraph separators and the BOM. -/
def jsWs (c : Char) : Bool :=
  c == '\t' || c == '\n' || c == '\x0b' || c == '\x0c' || c == '\r' || c == ' ' ||
  c == ' ' || c == ' ' || (' ' ≤ c && c ≤ ' ') ||
  c == ' ' || c == ' ' || c == ' ' || c == ' ' ||
  c == '　' || c == '﻿'

/-- JavaScript's `\d`: the ASCII digits. -/
def jsDigit (c : Char) : Bool := '0' ≤ c && c ≤ '9'

/-- JavaScript `String.prototype.trim`: remove leading and trailing `jsWs` characters. -/
def jsTrim (s : List Char) : List Char :=
  ((s.dropWhile jsWs).reverse.dropWhile jsWs).reverse

/-- Lower-case an ASCII letter; the canonicalisation performed by the `i`
regular-expression flag on the ASCII keywords involved here. -/
def asciiLower (c : Char) : Char :=
  if 'A' ≤ c && c ≤ 'Z' then Char.ofNat (c.toNat + 32) else c

/-- Does the pattern `pat` occur in `s` starting at position `k`?
(The building block of `String.prototype.lastIndexOf`.) -/
def matchesAt (s pat : List Char) (k : Nat) : Bool :=
  (s.drop k).take pat.length == pat

/-- The largest `k ≤ pos` with `matchesAt s pat k`, searching downward. -/
def lastHit (s pat : List Char) : Nat → Option Nat
  | 0 => if matchesAt s pat 0 then some 0 else none
  | k + 1 => if matchesAt s pat (k + 1) then some (k + 1) else lastHit s pat k

/-- JavaScript `s.lastIndexOf(pat, pos)`: the largest start position `≤ pos` at which
`pat` occurs in `s`, or `-1` when there is none. -/
def jsLastIndexOf (s pat : List Char) (pos : Nat) : Int :=
  match lastHit s pat pos with
  | some k => (k : Int)
  | none => -1

/-- The split-point selection of the chunking loop
(`src/extension/background.js` lines 136-146), for a remaining text longer
than `chunkSize`:

    let splitAt = -1;
    splitAt = remainingText.lastIndexOf('\n\n', chunkSize);
    if (splitAt === -1) {
        const sentenceEnders = ['.', '!', '?'];
        for (const ender of sentenceEnders) {
            const potentialSplit = remainingText.lastIndexOf(ender + ' ', chunkSize);
            if (potentialSplit > splitAt) splitAt = potentialSplit;
        }
    }
    if (splitAt === -1) splitAt = remainingText.lastIndexOf(' ', chunkSize);
    if (splitAt === -1) splitAt = chunkSize;
-/
def splitIndexInt (s : List Char) (chunkSize : Nat) : Int :=
  let s1 : Int := jsLastIndexOf s ['\n', '\n'] chunkSize
  let s2 : Int :=
    if s1 = -1 then
      ['.', '!', '?'].foldl
        (fun acc e =>
          let p := jsLastIndexOf s [e, ' '] chunkSize
          if p > acc then p else acc) s1
    else s1
  let s3 : Int := if s2 = -1 then jsLastIndexOf s [' '] chunkSize else s2
  if s3 = -1 then (chunkSize : Int) else s3

/-- Status of a chunk: the JS code uses the strings `'pending'` and `'sent'`. -/
inductive ChunkStatus where
  | pending
  | sent
deriving DecidableEq

/-- A chunk record as produced by `processAndSaveBook`. -/
structure Chunk where
  chunkIndex : Nat
  chapter : List Char
  chapterChunkIndex : Nat
  content : List Char
  status : ChunkStatus
deriving DecidableEq

/-- One prose segment's chunking loop (`src/extension/background.js`
lines 130-159).  `fuel` bounds the number of iterations; it is instantiated
with the length of `remaining`, which suffices because each iteration
consumes at least one character.  The accumulator `acc` is the `allChunks`
array: a new chunk's `chunkIndex` is `acc.length` exactly as in
`allChunks.push({ chunkIndex: allChunks.length, ... })`. -/
def chunkLoop (chunkSize : Nat) (chapterTitle : List Char) :
    Nat → List Char → Nat → List Chunk → List Chunk
  | 0, _, _, acc => acc
  | fuel + 1, remaining, cci, acc =>
    if remaining.length = 0 then acc
    else if remaining.length ≤ chunkSize then
      acc ++ [⟨acc.length, chapterTitle, cci, jsTrim remaining, .pending⟩]
    else
      let n : Nat := (splitIndexInt remaining chunkSize + 1).toNat
      chunkLoop chunkSize chapterTitle fuel (remaining.drop n) (cci + 1)
        (acc ++ [⟨acc.length, chapterTitle, cci, jsTrim (remaining.take n), .pending⟩])

/-- Case-insensitive keyword match at the head of `s` for the capture group
`(Chapter\s+\d+|Part\s+\d+|Book\s+\d+)`: one of the keywords, then at least
one `\s`, then at least one digit (both runs taken greedily, which is the
unique possibility since `\s` and `\d` are disjoint).  Returns the number of
characters matched. -/
def matchKeyword? (s : List Char) : Option Nat :=
  let tryKw : List Char → Option Nat := fun kw =>
    if (s.take kw.length).map asciiLower == kw then
      let rest := s.drop kw.length
      let w := (rest.takeWhile jsWs).length
      let d := ((rest.drop w).takeWhile jsDigit).length
      if 0 < w ∧ 0 < d then some (kw.length + w + d) else none
    else none
  (tryKw "chapter".toList) <|> (tryKw "part".toList) <|> (tryKw "book".toList)

/-- One attempt of the splitter regex
`/(?:^|\n\n)(Chapter\s+\d+|Part\s+\d+|Book\s+\d+)/gi` at the current
position.  `atStart` records whether the current position is the absolute
start of the string (where the `^` alternative can apply).  On success it
returns the total number of characters consumed together with the text of
the capture group (which excludes a consumed `\n\n`). -/
def tryMatch (atStart : Bool) (s : List Char) : Option (Nat × List Char) :=
  match (if atStart then matchKeyword? s else none) with
  | some n => some (n, s.take n)
  | none =>
    match s with
    | '\n' :: '\n' :: rest =>
      match matchKeyword? rest with
      | some n => some (n + 2, rest.take n)
      | none => none
    | _ => none

/-- The scan of `String.prototype.split` with the chapter regex: advance one
character at a time; at each position try the regex; on a match emit the
piece accumulated since the previous match followed by the capture group.
`pre` holds the current piece reversed.  `fuel` is instantiated with the
length of `rest` (each step consumes at least one character of `rest`, and
when `rest` is empty the scan stops regardless of fuel). -/
def splitScan (fuel : Nat) (atStart : Bool) (pre rest : List Char) :
    List (List Char) :=
  match fuel with
  | 0 => [pre.reverse]
  | fuel + 1 =>
    match tryMatch atStart rest with
    | some (n, cap) => pre.reverse :: cap :: splitScan fuel false [] (rest.drop n)
    | none =>
      match rest with
      | [] => [pre.reverse]
      | c :: rs => splitScan fuel false (c :: pre) rs

/-- The split `textContent.split(chapterRegex)`: the alternating list
(prose, heading, prose, heading, ..., prose). -/
def chaptersSplit (text : List Char) : List (List Char) :=
  splitScan text.length true [] text

/-- The outer loop of `processAndSaveBook` over the pieces of
`chaptersSplit`: pieces at odd positions are chapter-title captures and
update the current chapter label; pieces at even positions are prose and are
chunked.  The Boolean `isTitle` tracks the parity `i % 2 === 1`. -/
def chapterLoop (chunkSize : Nat) :
    List (List Char) → Bool → List Char → List Chunk → List Chunk
  | [], _, _, acc => acc
  | piece :: rest, isTitle, chapterTitle, acc =>
    if isTitle then
      chapterLoop chunkSize rest false (jsTrim piece) acc
    else
      chapterLoop chunkSize rest true chapterTitle
        (chunkLoop chunkSize chapterTitle (jsTrim piece).length (jsTrim piece) 0 acc)

/-- The pure core of `processAndSaveBook` (`src/extension/background.js`
lines 106-160): the ordered chunk list built from a raw text and the
configured chunk size. -/
def processBook (chunkSize : Nat) (text : List Char) : List Chunk :=
  chapterLoop chunkSize (chaptersSplit text) false "Introduction".toList []

/-- A book record. `id` is assigned by `addBook` from the clock
(`book_${Date.now()}`), passed in here as an opaque string. -/
structure Book where
  id : List Char
  title : List Char
  sourceUrl : List Char
  chunks : List Chunk
  lastSentChunk : Int
deriving DecidableEq

instance : Inhabited Book := ⟨⟨[], [], [], [], -1⟩⟩

/-- Function `processAndSaveBook` itself: chunk the text and build the new book record
with `lastSentChunk: -1`; the id is what `addBook` assigns. -/
def processAndSaveBook (chunkSize : Nat) (title text sourceUrl now : List Char) :
    Book :=
  { id := "book_".toList ++ now
    title := title
    sourceUrl := sourceUrl
    chunks := processBook chunkSize text
    lastSentChunk := -1 }

/-! ## Library store (`src/extension/background.js` lines 59-68) -/

/-- The partial update object passed to `updateBook` (`updatedData`).  The
callers update `title`, or `chunks` together with `lastSentChunk`; a missing
field leaves the stored field untouched (spread semantics of
`{ ...library[bookIndex], ...updatedData }`). -/
structure BookPatch where
  title? : Option (List Char) := none
  sourceUrl? : Option (List Char) := none
  chunks? : Option (List Chunk) := none
  lastSentChunk? : Option Int := none

/-- Merge `{ ...book, ...patch }`: each field present in the patch replaces the
stored one wholesale; absent fields are kept. -/
def mergeBook (b : Book) (p : BookPatch) : Book :=
  { id := b.id
    title := p.title?.getD b.title
    sourceUrl := p.sourceUrl?.getD b.sourceUrl
    chunks := p.chunks?.getD b.chunks
    lastSentChunk := p.lastSentChunk?.getD b.lastSentChunk }

/-- Operation `updateBook(bookId, updatedData)`: find the first book with the given id
(`findIndex`), merge and write back in place; return the updated record, or
`null` (here `none`) when the id is absent, leaving the library untouched.
The pair is (returned value, resulting stored library). -/
def updateBook (library : List Book) (bookId : List Char)
    (updatedData : BookPatch) : Option Book × List Book :=
  match library.findIdx? (fun b => b.id == bookId) with
  | some i =>
    let merged := mergeBook (library.getD i default) updatedData
    (some merged, library.set i merged)
  | none => (none, library)

/-! ## Delivery sequencer (`src/extension/content.js` lines 193-267)

The state a book's delivery goes through: the per-chunk `status` fields, the
book's `lastSentChunk`, and the content script's globals `isSendingAll`.
Chunks are identified by their `chunkIndex`, which equals their position in
the `chunks` array (proved below as part of C7), so `statuses` is indexed by
position.  The external world enters through a `DispatchOutcome`: the
pastebin upload may fail, the chat input / send button may be missing, the
send button may stay disabled, or everything succeeds.  `dispatched` records
each chunk for which the dispatch path was run (the upload request), making
"re-dispatches" observable. -/

inductive DispatchOutcome where
  | uploadFailed
  | chatUiMissing
  | sendButtonStuck
  | delivered
deriving DecidableEq

structure SeqState where
  statuses : List ChunkStatus
  lastSentChunk : Int
  isSendingAll : Bool
  dispatched : List Nat
deriving DecidableEq

/-- Function `sendChunk(chunk)` for the chunk at index `i` (a book is selected).  The
upload request is always issued.  Only when the upload succeeds, the chat UI
is present and the send button enables does the code mark the chunk sent and
raise `lastSentChunk` (`content.js` lines 229-236); on every failure path it
only re-enables the button, leaving `status`, `lastSentChunk` and
`isSendingAll` untouched. -/
def sendChunk (st : SeqState) (i : Nat) (out : DispatchOutcome) : SeqState :=
  let st1 := { st with dispatched := st.dispatched ++ [i] }
  match out with
  | .delivered =>
    { st1 with
      statuses := st1.statuses.set i .sent
      lastSentChunk := max st1.lastSentChunk (i : Int) }
  | _ => st1

/-- Search `currentBook.chunks.find(c => c.status !== 'sent')`: position of the
first chunk not marked sent. -/
def findFirstUnsent (statuses : List ChunkStatus) : Option Nat :=
  statuses.findIdx? (fun s => s != ChunkStatus.sent)

/-- The `kuato-send-next` button handler: send the first unsent chunk, or
alert "All chunks have been sent" (a no-op on the state). -/
def sendNext (st : SeqState) (out : DispatchOutcome) : SeqState :=
  match findFirstUnsent st.statuses with
  | some i => sendChunk st i out
  | none => st

/-- Function `sendNextChunkInSequence()` (lines 253-267), reached from the Send All
button and from the reply-observed MutationObserver callback: when
`isSendingAll` is off it does nothing; otherwise it sends the first unsent
chunk, or, when none remains, turns `isSendingAll` off. -/
def sendNextChunkInSequence (st : SeqState) (out : DispatchOutcome) : SeqState :=
  if st.isSendingAll = false then { st with isSendingAll := false }
  else
    match findFirstUnsent st.statuses with
    | some i => sendChunk st i out
    | none => { st with isSendingAll := false }

/-- Operation `retry` (the per-chunk Retry button, `renderBookInfo`): re-runs the same
dispatch path for that specific chunk, whatever its status. -/
def retry (st : SeqState) (i : Nat) (out : DispatchOutcome) : SeqState :=
  sendChunk st i out

/-- A user-driven operation on a book's delivery state, with the outcome the
external world produced for the dispatch it triggers. -/
inductive SeqOp where
  | opSendNext (out : DispatchOutcome)
  | opRetry (i : Nat) (out : DispatchOutcome)

def stepOp (st : SeqState) : SeqOp → SeqState
  | .opSendNext out => sendNext st out
  | .opRetry i out => retry st i out

def runOps (st : SeqState) : List SeqOp → SeqState
  | [] => st
  | op :: ops => runOps (stepOp st op) ops

/-! ## Spec-side predicates used to state the claims -/

/-- Position `m` is the last one at or before `cs` where `pat` occurs. -/
def IsLastHit (s pat : List Char) (cs m : Nat) : Prop :=
  matchesAt s pat m = true ∧ m ≤ cs ∧
    ∀ k, k ≤ cs → matchesAt s pat k = true → k ≤ m

/-- No occurrence of `pat` starts at or before position `cs`. -/
def NoHit (s pat : List Char) (cs : Nat) : Prop :=
  ∀ k, k ≤ cs → matchesAt s pat k = false

/-- The sentence-ender patterns `". "`, `"! "`, `"? "`. -/
def enderPats : List (List Char) := [['.', ' '], ['!', ' '], ['?', ' ']]

/-- Position `m` is the last one at or before `cs` where some sentence-ender
pattern occurs. -/
def IsLastEnderHit (s : List Char) (cs m : Nat) : Prop :=
  (∃ pat ∈ enderPats, matchesAt s pat m = true) ∧ m ≤ cs ∧
    ∀ k, k ≤ cs → ∀ pat ∈ enderPats, matchesAt s pat k = true → k ≤ m

/-- No sentence-ender pattern occurs at or before position `cs`. -/
def NoEnderHit (s : List Char) (cs : Nat) : Prop :=
  ∀ pat ∈ enderPats, NoHit s pat cs

/-- Relation stating `sub` is `orig` with some whitespace characters deleted: it is a
subsequence of `orig` and the two agree once all whitespace is dropped
(so no non-whitespace character is lost and none is duplicated). -/
def OnlyWsRemoved (orig sub : List Char) : Prop :=
  sub.Sublist orig ∧ sub.filter (fun c => !jsWs c) = orig.filter (fun c => !jsWs c)

/-- The relation claim C7 asserts between two consecutive chunks: a chapter
change resets `chapterChunkIndex` to 0, and otherwise it increases by 1. -/
def ClaimedCCPair (a b : Chunk) : Prop :=
  (b.chapter = a.chapter → b.chapterChunkIndex = a.chapterChunkIndex + 1) ∧
  (b.chapter ≠ a.chapter → b.chapterChunkIndex = 0)

/-- What actually relates two consecutive chunks: a chapter change resets
`chapterChunkIndex` to 0, and within a chapter it either increases by 1 or
resets to 0 (the reset happens exactly when a fresh heading carried the same
label). -/
def ActualCCPair (a b : Chunk) : Prop :=
  (b.chapter ≠ a.chapter → b.chapterChunkIndex = 0) ∧
  (b.chapterChunkIndex = a.chapterChunkIndex + 1 ∨ b.chapterChunkIndex = 0)

/-- The chunks produced from the prose that precedes the first detected
heading (the head piece of `chaptersSplit`), labelled `"Introduction"`. -/
def introChunks (chunkSize : Nat) (text : List Char) : List Chunk :=
  chunkLoop chunkSize "Introduction".toList
    (jsTrim (chaptersSplit text).headI).length (jsTrim (chaptersSplit text).headI) 0 []

end Kuato

-- sanity checks of the embedding on concrete inputs
example : Kuato.jsTrim "  ab c \n".toList = "ab c".toList := by decide

example : Kuato.jsLastIndexOf "ab. cd. e".toList ['.', ' '] 6 = 6 := by decide

example : Kuato.jsLastIndexOf "ab. cd. e".toList ['.', ' '] 5 = 2 := by decide

example :
    Kuato.chaptersSplit "\n\nChapter 1\nHello world.\n\nChapter 2\nGoodbye world.".toList =
      ["".toList, "Chapter 1".toList, "\nHello world.".toList,
       "Chapter 2".toList, "\nGoodbye world.".toList] := by decide

example :
    (Kuato.processBook 1000 "\n\nChapter 1\nHello world.\n\nChapter 2\nGoodbye world.".toList).map
        Kuato.Chunk.content =
      ["Hello world.".toList, "Goodbye world.".toList] := by decide

/-! ## Characterisation of `lastIndexOf` and the split-point selection -/

namespace Kuato

theorem lastHit_eq_some_iff {s pat : List Char} {pos m : Nat} :
    lastHit s pat pos = some m ↔ IsLastHit s pat pos m := by
  induction pos with
  | zero =>
    unfold IsLastHit
    simp only [lastHit]
    by_cases h : matchesAt s pat 0 = true
    · rw [if_pos h]
      simp only [Option.some.injEq]
      constructor
      · rintro rfl
        exact ⟨h, Nat.le_refl 0, fun k hk _ => hk⟩
      · rintro ⟨_, hle, _⟩
        omega
    · rw [if_neg h]
      constructor
      · rintro ⟨⟩
      · rintro ⟨hm, hle, _⟩
        have hm0 : m = 0 := by omega
        subst hm0
        exact absurd hm h
  | succ p ih =>
    simp only [lastHit]
    by_cases h : matchesAt s pat (p + 1) = true
    · rw [if_pos h]
      simp only [Option.some.injEq]
      unfold IsLastHit
      constructor
      · rintro rfl
        exact ⟨h, Nat.le_refl _, fun k hk _ => hk⟩
      · rintro ⟨hm, hle, hmax⟩
        have := hmax (p + 1) (Nat.le_refl _) h
        omega
    · rw [if_neg h, ih]
      unfold IsLastHit
      constructor
      · rintro ⟨hm, hle, hmax⟩
        refine ⟨hm, by omega, fun k hk hmk => ?_⟩
        rcases Nat.lt_or_ge k (p + 1) with hk' | hk'
        · exact hmax k (by omega) hmk
        · have hkeq : k = p + 1 := by omega
          subst hkeq
          exact absurd hmk h
      · rintro ⟨hm, hle, hmax⟩
        have hm' : m ≤ p := by
          rcases Nat.lt_or_ge m (p + 1) with h1 | h1
          · omega
          · have hmeq : m = p + 1 := by omega
            subst hmeq
            exact absurd hm h
        exact ⟨hm, hm', fun k hk hmk => hmax k (by omega) hmk⟩

theorem lastHit_eq_none_iff {s pat : List Char} {pos : Nat} :
    lastHit s pat pos = none ↔ NoHit s pat pos := by
  induction pos with
  | zero =>
    unfold NoHit
    simp only [lastHit]
    by_cases h : matchesAt s pat 0 = true
    · rw [if_pos h]
      constructor
      · rintro ⟨⟩
      · intro hall
        have h0 := hall 0 (Nat.le_refl 0)
        rw [h0] at h
        exact absurd h (by simp)
    · rw [if_neg h]
      constructor
      · intro _ k hk
        have hk0 : k = 0 := by omega
        subst hk0
        exact Bool.not_eq_true _ |>.mp h
      · intro _
        rfl
  | succ p ih =>
    unfold NoHit
    simp only [lastHit]
    by_cases h : matchesAt s pat (p + 1) = true
    · rw [if_pos h]
      constructor
      · rintro ⟨⟩
      · intro hall
        have h0 := hall (p + 1) (Nat.le_refl _)
        rw [h0] at h
        exact absurd h (by simp)
    · rw [if_neg h, ih]
      unfold NoHit
      constructor
      · intro hall k hk
        rcases Nat.lt_or_ge k (p + 1) with hk' | hk'
        · exact hall k (by omega)
        · have hkeq : k = p + 1 := by omega
          subst hkeq
          exact Bool.not_eq_true _ |>.mp h
      · intro hall k hk
        exact hall k (by omega)

theorem jsLastIndexOf_eq_neg_one_iff {s pat : List Char} {pos : Nat} :
    jsLastIndexOf s pat pos = -1 ↔ NoHit s pat pos := by
  unfold jsLastIndexOf
  split
  · next k heq =>
    have hk := lastHit_eq_some_iff.mp heq
    constructor
    · intro habs
      omega
    · intro hno
      have h1 := hk.1
      rw [hno k hk.2.1] at h1
      exact Bool.noConfusion h1
  · next heq =>
    exact iff_of_true rfl (lastHit_eq_none_iff.mp heq)

theorem jsLastIndexOf_eq_coe_iff {s pat : List Char} {pos m : Nat} :
    jsLastIndexOf s pat pos = (m : Int) ↔ IsLastHit s pat pos m := by
  unfold jsLastIndexOf
  split
  · next k heq =>
    have hk := lastHit_eq_some_iff.mp heq
    constructor
    · intro hkm
      have hkm' : k = m := by omega
      subst hkm'
      exact hk
    · intro hm
      have h1 := hm.2.2 k hk.2.1 hk.1
      have h2 := hk.2.2 m hm.2.1 hm.1
      omega
  · next heq =>
    have hnone := lastHit_eq_none_iff.mp heq
    constructor
    · intro habs
      omega
    · intro hm
      have h1 := hm.1
      rw [hnone m hm.2.1] at h1
      exact Bool.noConfusion h1

theorem jsLastIndexOf_cases (s pat : List Char) (pos : Nat) :
    jsLastIndexOf s pat pos = -1 ∨ 0 ≤ jsLastIndexOf s pat pos := by
  unfold jsLastIndexOf
  split
  · omega
  · omega

theorem jsLastIndexOf_le (s pat : List Char) (pos : Nat) :
    jsLastIndexOf s pat pos ≤ (pos : Int) := by
  unfold jsLastIndexOf
  split
  · next k heq =>
    have := (lastHit_eq_some_iff.mp heq).2.1
    omega
  · omega

theorem ite_gt_eq_max (a p : Int) : (if p > a then p else a) = max a p := by
  rcases le_or_lt p a with h | h
  · rw [if_neg (not_lt.mpr h), max_eq_left h]
  · rw [if_pos h, max_eq_right h.le]

theorem splitIndexInt_bounds (s : List Char) (cs : Nat) :
    0 ≤ splitIndexInt s cs ∧ splitIndexInt s cs ≤ (cs : Int) := by
  have c1 := jsLastIndexOf_cases s ['\n', '\n'] cs
  have c2 := jsLastIndexOf_cases s ['.', ' '] cs
  have c3 := jsLastIndexOf_cases s ['!', ' '] cs
  have c4 := jsLastIndexOf_cases s ['?', ' '] cs
  have c5 := jsLastIndexOf_cases s [' '] cs
  have l1 := jsLastIndexOf_le s ['\n', '\n'] cs
  have l2 := jsLastIndexOf_le s ['.', ' '] cs
  have l3 := jsLastIndexOf_le s ['!', ' '] cs
  have l4 := jsLastIndexOf_le s ['?', ' '] cs
  have l5 := jsLastIndexOf_le s [' '] cs
  simp only [splitIndexInt, List.foldl, ite_gt_eq_max]
  by_cases h1 : jsLastIndexOf s ['\n', '\n'] cs = -1
  · rw [if_pos h1]
    by_cases h2 : max (max (max (jsLastIndexOf s ['\n', '\n'] cs)
        (jsLastIndexOf s ['.', ' '] cs)) (jsLastIndexOf s ['!', ' '] cs))
        (jsLastIndexOf s ['?', ' '] cs) = -1
    · rw [if_pos h2]
      by_cases h3 : jsLastIndexOf s [' '] cs = -1
      · rw [if_pos h3]
        omega
      · rw [if_neg h3]
        omega
    · rw [if_neg h2]
      omega
  · rw [if_neg h1, if_neg h1, if_neg h1]
    omega

theorem splitIndexInt_nonneg (s : List Char) (cs : Nat) : 0 ≤ splitIndexInt s cs :=
  (splitIndexInt_bounds s cs).1

theorem splitIndexInt_le (s : List Char) (cs : Nat) :
    splitIndexInt s cs ≤ (cs : Int) :=
  (splitIndexInt_bounds s cs).2

end Kuato

namespace Kuato

theorem exists_isLastHit_of_nonneg {s pat : List Char} {pos : Nat}
    (h : 0 ≤ jsLastIndexOf s pat pos) :
    ∃ m : Nat, jsLastIndexOf s pat pos = (m : Int) ∧ IsLastHit s pat pos m := by
  rcases hl : lastHit s pat pos with _ | k
  · rw [jsLastIndexOf_eq_neg_one_iff.mpr (lastHit_eq_none_iff.mp hl)] at h
    omega
  · refine ⟨k, ?_, lastHit_eq_some_iff.mp hl⟩
    unfold jsLastIndexOf
    rw [hl]

/-- C5: whenever the remaining text exceeds `chunkSize` the split point is
chosen by strict priority: the last double line-break starting at or before
position `chunkSize`; failing that, the last sentence-ending punctuation
followed by a space; failing that, the last plain space; failing all three, a
hard cut at position `chunkSize`.  In particular a double line-break wins
over a sentence end even when the sentence end is closer to the limit
(conjunct one applies whatever the sentence-ender occurrences are). -/
theorem splitIndex_priority (s : List Char) (cs : Nat) :
    (∀ m, IsLastHit s ['\n', '\n'] cs m → splitIndexInt s cs = m) ∧
    (NoHit s ['\n', '\n'] cs →
      ∀ m, IsLastEnderHit s cs m → splitIndexInt s cs = m) ∧
    (NoHit s ['\n', '\n'] cs → NoEnderHit s cs →
      ∀ m, IsLastHit s [' '] cs m → splitIndexInt s cs = m) ∧
    (NoHit s ['\n', '\n'] cs → NoEnderHit s cs → NoHit s [' '] cs →
      splitIndexInt s cs = (cs : Int)) := by
  refine ⟨?_, ?_, ?_, ?_⟩
  · intro m hm
    have h := jsLastIndexOf_eq_coe_iff.mpr hm
    have hne : ¬ jsLastIndexOf s ['\n', '\n'] cs = -1 := by omega
    simp only [splitIndexInt, List.foldl, ite_gt_eq_max]
    rw [if_neg hne, if_neg hne, if_neg hne]
    exact h
  · intro hno m hm
    have h1 : jsLastIndexOf s ['\n', '\n'] cs = -1 :=
      jsLastIndexOf_eq_neg_one_iff.mpr hno
    have hub : ∀ pat ∈ enderPats, jsLastIndexOf s pat cs ≤ (m : Int) := by
      intro pat hpat
      rcases jsLastIndexOf_cases s pat cs with hc | hc
      · omega
      · rcases exists_isLastHit_of_nonneg hc with ⟨k, hk, hlast⟩
        have := hm.2.2 k hlast.2.1 pat hpat hlast.1
        omega
    have hex : ∃ pat ∈ enderPats, jsLastIndexOf s pat cs = (m : Int) := by
      rcases hm.1 with ⟨pat, hpat, hmatch⟩
      refine ⟨pat, hpat, ?_⟩
      rcases jsLastIndexOf_cases s pat cs with hc | hc
      · have hfalse := jsLastIndexOf_eq_neg_one_iff.mp hc m hm.2.1
        rw [hfalse] at hmatch
        exact Bool.noConfusion hmatch
      · rcases exists_isLastHit_of_nonneg hc with ⟨k, hk, hlast⟩
        have h2 := hm.2.2 k hlast.2.1 pat hpat hlast.1
        have h3 := hlast.2.2 m hm.2.1 hmatch
        omega
    have u2 := hub ['.', ' '] (by simp [enderPats])
    have u3 := hub ['!', ' '] (by simp [enderPats])
    have u4 := hub ['?', ' '] (by simp [enderPats])
    have hM : max (max (max (jsLastIndexOf s ['\n', '\n'] cs)
        (jsLastIndexOf s ['.', ' '] cs)) (jsLastIndexOf s ['!', ' '] cs))
        (jsLastIndexOf s ['?', ' '] cs) = (m : Int) := by
      rcases hex with ⟨pat, hpat, hpe⟩
      simp only [enderPats, List.mem_cons, List.not_mem_nil, or_false] at hpat
      rcases hpat with rfl | rfl | rfl <;> omega
    have hMne : ¬ max (max (max (jsLastIndexOf s ['\n', '\n'] cs)
        (jsLastIndexOf s ['.', ' '] cs)) (jsLastIndexOf s ['!', ' '] cs))
        (jsLastIndexOf s ['?', ' '] cs) = -1 := by omega
    simp only [splitIndexInt, List.foldl, ite_gt_eq_max]
    rw [if_pos h1, if_neg hMne, if_neg hMne]
    exact hM
  · intro hno hnoe m hm
    have h1 : jsLastIndexOf s ['\n', '\n'] cs = -1 :=
      jsLastIndexOf_eq_neg_one_iff.mpr hno
    have e2 : jsLastIndexOf s ['.', ' '] cs = -1 :=
      jsLastIndexOf_eq_neg_one_iff.mpr (hnoe ['.', ' '] (by simp [enderPats]))
    have e3 : jsLastIndexOf s ['!', ' '] cs = -1 :=
      jsLastIndexOf_eq_neg_one_iff.mpr (hnoe ['!', ' '] (by simp [enderPats]))
    have e4 : jsLastIndexOf s ['?', ' '] cs = -1 :=
      jsLastIndexOf_eq_neg_one_iff.mpr (hnoe ['?', ' '] (by simp [enderPats]))
    have h := jsLastIndexOf_eq_coe_iff.mpr hm
    have hne : ¬ jsLastIndexOf s [' '] cs = -1 := by omega
    have hM : max (max (max (jsLastIndexOf s ['\n', '\n'] cs)
        (jsLastIndexOf s ['.', ' '] cs)) (jsLastIndexOf s ['!', ' '] cs))
        (jsLastIndexOf s ['?', ' '] cs) = -1 := by omega
    simp only [splitIndexInt, List.foldl, ite_gt_eq_max]
    rw [if_pos h1, if_pos hM, if_neg hne]
    exact h
  · intro hno hnoe hnos
    have h1 : jsLastIndexOf s ['\n', '\n'] cs = -1 :=
      jsLastIndexOf_eq_neg_one_iff.mpr hno
    have e2 : jsLastIndexOf s ['.', ' '] cs = -1 :=
      jsLastIndexOf_eq_neg_one_iff.mpr (hnoe ['.', ' '] (by simp [enderPats]))
    have e3 : jsLastIndexOf s ['!', ' '] cs = -1 :=
      jsLastIndexOf_eq_neg_one_iff.mpr (hnoe ['!', ' '] (by simp [enderPats]))
    have e4 : jsLastIndexOf s ['?', ' '] cs = -1 :=
      jsLastIndexOf_eq_neg_one_iff.mpr (hnoe ['?', ' '] (by simp [enderPats]))
    have e5 : jsLastIndexOf s [' '] cs = -1 :=
      jsLastIndexOf_eq_neg_one_iff.mpr hnos
    have hM : max (max (max (jsLastIndexOf s ['\n', '\n'] cs)
        (jsLastIndexOf s ['.', ' '] cs)) (jsLastIndexOf s ['!', ' '] cs))
        (jsLastIndexOf s ['?', ' '] cs) = -1 := by omega
    simp only [splitIndexInt, List.foldl, ite_gt_eq_max]
    rw [if_pos h1, if_pos hM, if_pos e5]

/-- Witness for C5 on a concrete input: in `"a.\n\nb. c d"` with limit 8, the
double line-break at position 2 is chosen although the sentence end at
position 5 is closer to the limit. -/
theorem splitIndex_priority_witness :
    IsLastHit "a.\n\nb. c d".toList ['\n', '\n'] 8 2 ∧
      splitIndexInt "a.\n\nb. c d".toList 8 = 2 :=
  ⟨lastHit_eq_some_iff.mp (by decide),
   (splitIndex_priority "a.\n\nb. c d".toList 8).1 2 (lastHit_eq_some_iff.mp (by decide))⟩

theorem chunkLoop_fuel_stable (cs : Nat) (t : List Char) :
    ∀ (N fuel₁ fuel₂ : Nat) (rem : List Char) (cci : Nat) (acc : List Chunk),
      rem.length ≤ N → rem.length ≤ fuel₁ → rem.length ≤ fuel₂ →
      chunkLoop cs t fuel₁ rem cci acc = chunkLoop cs t fuel₂ rem cci acc := by
  intro N
  induction N with
  | zero =>
    intro f1 f2 rem cci acc hN h1 h2
    have hrem : rem = [] := List.length_eq_zero.mp (by omega)
    subst hrem
    cases f1 <;> cases f2 <;> simp [chunkLoop]
  | succ N ih =>
    intro f1 f2 rem cci acc hN h1 h2
    by_cases hrem : rem.length = 0
    · have hnil : rem = [] := List.length_eq_zero.mp hrem
      subst hnil
      cases f1 <;> cases f2 <;> simp [chunkLoop]
    · obtain ⟨g1, rfl⟩ : ∃ g, f1 = g + 1 := ⟨f1 - 1, by omega⟩
      obtain ⟨g2, rfl⟩ : ∃ g, f2 = g + 1 := ⟨f2 - 1, by omega⟩
      simp only [chunkLoop]
      rw [if_neg hrem, if_neg hrem]
      by_cases hle : rem.length ≤ cs
      · rw [if_pos hle, if_pos hle]
      · rw [if_neg hle, if_neg hle]
        have hsp := splitIndexInt_nonneg rem cs
        have hn1 : 1 ≤ (splitIndexInt rem cs + 1).toNat := by omega
        exact ih g1 g2 _ (cci + 1) _
          (by rw [List.length_drop]; omega)
          (by rw [List.length_drop]; omega)
          (by rw [List.length_drop]; omega)

/-- C10: for every chunk size ≥ 1 the chunking loop terminates: the chosen
split index is never negative, dropping past it strictly shrinks a non-empty
remainder, and the loop is insensitive to any fuel of at least the remaining
length — it completes within `remaining.length` iterations, producing a
finite chunk sequence. -/
theorem chunker_terminates (cs : Nat) (hcs : 1 ≤ cs) (rem : List Char) :
    0 ≤ splitIndexInt rem cs ∧
    (rem ≠ [] →
      (rem.drop ((splitIndexInt rem cs + 1).toNat)).length < rem.length) ∧
    (∀ t fuel₁ fuel₂ cci acc, rem.length ≤ fuel₁ → rem.length ≤ fuel₂ →
      chunkLoop cs t fuel₁ rem cci acc = chunkLoop cs t fuel₂ rem cci acc) := by
  refine ⟨splitIndexInt_nonneg rem cs, ?_, ?_⟩
  · intro hne
    have hsp := splitIndexInt_nonneg rem cs
    have hlen : 0 < rem.length := List.length_pos.mpr hne
    rw [List.length_drop]
    omega
  · intro t f1 f2 cci acc h1 h2
    exact chunkLoop_fuel_stable cs t rem.length f1 f2 rem cci acc (Nat.le_refl _) h1 h2

/-- Witness for C10: on the concrete remainder `"ab cd"` with chunk size 2
the split index is non-negative and the remainder strictly shrinks. -/
theorem chunker_terminates_witness :
    0 ≤ splitIndexInt "ab cd".toList 2 ∧
      ("ab cd".toList.drop ((splitIndexInt "ab cd".toList 2 + 1).toNat)).length <
        "ab cd".toList.length :=
  ⟨(chunker_terminates 2 (by decide) "ab cd".toList).1,
   (chunker_terminates 2 (by decide) "ab cd".toList).2.1 (by decide)⟩

end Kuato

namespace Kuato

theorem jsTrim_sublist (s : List Char) : (jsTrim s).Sublist s := by
  unfold jsTrim
  have h1 : (s.dropWhile jsWs).Sublist s := List.dropWhile_sublist _
  have h2 : ((s.dropWhile jsWs).reverse.dropWhile jsWs).Sublist
      (s.dropWhile jsWs).reverse := List.dropWhile_sublist _
  have h3 := h2.reverse
  rw [List.reverse_reverse] at h3
  exact h3.trans h1

theorem jsTrim_length_le (s : List Char) : (jsTrim s).length ≤ s.length :=
  (jsTrim_sublist s).length_le

theorem chunkLoop_content_le (cs : Nat) (t : List Char) :
    ∀ fuel rem cci acc,
      (∀ c ∈ acc, c.content.length ≤ cs + 1) →
      ∀ c ∈ chunkLoop cs t fuel rem cci acc, c.content.length ≤ cs + 1 := by
  intro fuel
  induction fuel with
  | zero =>
    intro rem cci acc hacc c hc
    simp only [chunkLoop] at hc
    exact hacc c hc
  | succ fuel ih =>
    intro rem cci acc hacc c hc
    simp only [chunkLoop] at hc
    split at hc
    · exact hacc c hc
    · split at hc
      · rcases List.mem_append.mp hc with h | h
        · exact hacc c h
        · rcases List.mem_singleton.mp h with rfl
          have h1 := jsTrim_length_le rem
          simp only
          omega
      · next h0 hle =>
        refine ih _ _ _ ?_ c hc
        intro c' hc'
        rcases List.mem_append.mp hc' with h | h
        · exact hacc c' h
        · rcases List.mem_singleton.mp h with rfl
          have hsp := splitIndexInt_le rem cs
          have hnn := splitIndexInt_nonneg rem cs
          have h1 := jsTrim_length_le (rem.take ((splitIndexInt rem cs + 1).toNat))
          have h2 : (rem.take ((splitIndexInt rem cs + 1).toNat)).length ≤
              (splitIndexInt rem cs + 1).toNat := by
            simp [List.length_take]
          simp only
          omega

theorem chapterLoop_content_le (cs : Nat) :
    ∀ (pieces : List (List Char)) (b : Bool) (t : List Char) (acc : List Chunk),
      (∀ c ∈ acc, c.content.length ≤ cs + 1) →
      ∀ c ∈ chapterLoop cs pieces b t acc, c.content.length ≤ cs + 1 := by
  intro pieces
  induction pieces with
  | nil =>
    intro b t acc hacc c hc
    simp only [chapterLoop] at hc
    exact hacc c hc
  | cons piece rest ih =>
    intro b t acc hacc c hc
    simp only [chapterLoop] at hc
    split at hc
    · exact ih false (jsTrim piece) acc hacc c hc
    · exact ih true t _ (chunkLoop_content_le cs t _ _ _ _ hacc) c hc

/-- C1 amended: every chunk emitted by the chunker has content of
length at most `chunkSize + 1`.  A split always keeps the split character
itself (`substring(0, splitAt + 1)` with `splitAt ≤ chunkSize`), so a chunk
ending in sentence punctuation at position `chunkSize`, or a hard cut, has
`chunkSize + 1` characters; the bound `chunkSize` of the original claim is
off by one. -/
theorem chunk_content_length_le (cs : Nat) (text : List Char) :
    ∀ c ∈ processBook cs text, c.content.length ≤ cs + 1 := by
  intro c hc
  exact chapterLoop_content_le cs (chaptersSplit text) false
    "Introduction".toList [] (by simp) c hc

/-- C1 counterexample: with `chunkSize = 5` and input `"abcde. fghij"`
the first emitted chunk has content `"abcde."` of length 6: a valid split
point (the `". "` starting at position 5) exists, yet the chunk exceeds the
limit, and it is not a hard cut of exactly 5 characters either.  This
refutes the claimed length bound. -/
theorem chunk_content_length_cex :
    ¬ (∀ c ∈ processBook 5 "abcde. fghij".toList, c.content.length ≤ 5) := by
  decide

/-- Witness for the amended C1 at a concrete chunk of a concrete book. -/
theorem chunk_content_length_le_witness :
    Chunk.mk 0 "Introduction".toList 0 "abcde.".toList ChunkStatus.pending ∈
        processBook 5 "abcde. fghij".toList ∧
      ("abcde.".toList).length ≤ 5 + 1 :=
  ⟨by decide,
   chunk_content_length_le 5 "abcde. fghij".toList
     (Chunk.mk 0 "Introduction".toList 0 "abcde.".toList ChunkStatus.pending)
     (by decide)⟩

end Kuato

namespace Kuato

/-- C2 counterexample: on the spec's own scenario input with
`chunkSize = 30`, the first chunk is *not* `"Sentence one."`: the sentence
boundary nearest to position 30 without exceeding it is the one after
`"Sentence two."` (the `". "` starting at position 26). -/
theorem chunker_scenario_cex :
    ((processBook 30 "Sentence one. Sentence two. A very long sentence that keeps going and going and going.".toList).map
        Chunk.content).head? ≠ some "Sentence one.".toList := by
  decide

/-- C2 amended: the scenario input splits at the *last* sentence
boundary at or before position 30, which is the one after
`"Sentence two."`; the first chunk is
`"Sentence one. Sentence two."` and every later boundary falls after a
sentence end or between words, never mid-word. -/
theorem chunker_scenario_amended :
    (processBook 30 "Sentence one. Sentence two. A very long sentence that keeps going and going and going.".toList).map
        Chunk.content =
      ["Sentence one. Sentence two.".toList,
       "A very long sentence that".toList,
       "keeps going and going and".toList,
       "going.".toList] := by
  decide

theorem splitScan_ne_nil :
    ∀ (fuel : Nat) (b : Bool) (pre rest : List Char),
      splitScan fuel b pre rest ≠ [] := by
  intro fuel
  induction fuel with
  | zero =>
    intro b pre rest
    simp [splitScan]
  | succ fuel ih =>
    intro b pre rest
    simp only [splitScan]
    split
    · simp
    · cases rest with
      | nil => simp
      | cons c rs => exact ih false (c :: pre) rs

theorem chaptersSplit_ne_nil (text : List Char) : chaptersSplit text ≠ [] :=
  splitScan_ne_nil text.length true [] text

theorem chunkLoop_acc_extends (cs : Nat) (t : List Char) :
    ∀ (fuel : Nat) (rem : List Char) (cci : Nat) (acc : List Chunk),
      ∃ m, chunkLoop cs t fuel rem cci acc = acc ++ m := by
  intro fuel
  induction fuel with
  | zero =>
    intro rem cci acc
    exact ⟨[], by simp [chunkLoop]⟩
  | succ fuel ih =>
    intro rem cci acc
    simp only [chunkLoop]
    split
    · exact ⟨[], by simp⟩
    · split
      · exact ⟨_, rfl⟩
      · rcases ih (rem.drop ((splitIndexInt rem cs + 1).toNat)) (cci + 1)
          (acc ++ [⟨acc.length, t, cci, jsTrim (rem.take ((splitIndexInt rem cs + 1).toNat)), .pending⟩]) with ⟨m, hm⟩
        exact ⟨_, by rw [hm, List.append_assoc]⟩

theorem chapterLoop_acc_extends (cs : Nat) :
    ∀ (pieces : List (List Char)) (b : Bool) (t : List Char) (acc : List Chunk),
      ∃ m, chapterLoop cs pieces b t acc = acc ++ m := by
  intro pieces
  induction pieces with
  | nil =>
    intro b t acc
    exact ⟨[], by simp [chapterLoop]⟩
  | cons piece rest ih =>
    intro b t acc
    simp only [chapterLoop]
    split
    · exact ih false (jsTrim piece) acc
    · rcases chunkLoop_acc_extends cs t (jsTrim piece).length (jsTrim piece) 0 acc with ⟨m, hm⟩
      rcases ih true t (chunkLoop cs t (jsTrim piece).length (jsTrim piece) 0 acc) with ⟨m', hm'⟩
      exact ⟨m ++ m', by rw [hm', hm, List.append_assoc]⟩

theorem chunkLoop_mem_chapter (cs : Nat) (t : List Char) :
    ∀ (fuel : Nat) (rem : List Char) (cci : Nat) (acc : List Chunk) (c : Chunk),
      c ∈ chunkLoop cs t fuel rem cci acc → c ∈ acc ∨ c.chapter = t := by
  intro fuel
  induction fuel with
  | zero =>
    intro rem cci acc c hc
    simp only [chunkLoop] at hc
    exact Or.inl hc
  | succ fuel ih =>
    intro rem cci acc c hc
    simp only [chunkLoop] at hc
    split at hc
    · exact Or.inl hc
    · split at hc
      · rcases List.mem_append.mp hc with h | h
        · exact Or.inl h
        · rcases List.mem_singleton.mp h with rfl
          exact Or.inr rfl
      · rcases ih _ _ _ _ hc with h | h
        · rcases List.mem_append.mp h with h' | h'
          · exact Or.inl h'
          · rcases List.mem_singleton.mp h' with rfl
            exact Or.inr rfl
        · exact Or.inr h

/-- C6: the two-chapter scenario yields exactly the two chunks with
chapter labels `"Chapter 1"` / `"Chapter 2"` and contents `"Hello world."` /
`"Goodbye world."`; and in general the chunks cut from the text preceding
the first detected heading form a prefix of the book's chunk list and all
carry the chapter label `"Introduction"`. -/
theorem chapter_scenario_and_intro_label :
    (processBook 1000 "\n\nChapter 1\nHello world.\n\nChapter 2\nGoodbye world.".toList =
      [Chunk.mk 0 "Chapter 1".toList 0 "Hello world.".toList .pending,
       Chunk.mk 1 "Chapter 2".toList 0 "Goodbye world.".toList .pending]) ∧
    (∀ (cs : Nat) (text : List Char),
      (∃ rest, processBook cs text = introChunks cs text ++ rest) ∧
      ∀ c ∈ introChunks cs text, c.chapter = "Introduction".toList) := by
  constructor
  · decide
  · intro cs text
    constructor
    · rcases hp : chaptersSplit text with _ | ⟨p, ps⟩
      · exact absurd hp (chaptersSplit_ne_nil text)
      · unfold processBook introChunks
        rw [hp]
        simp only [List.headI, chapterLoop]
        rw [if_neg (by simp)]
        exact chapterLoop_acc_extends cs ps true "Introduction".toList _
    · intro c hc
      rcases chunkLoop_mem_chapter cs "Introduction".toList _ _ _ _ c hc with h | h
      · simp at h
      · exact h

/-- Witness for C6's general part at a concrete input. -/
theorem chapter_scenario_and_intro_label_witness :
    Chunk.mk 0 "Introduction".toList 0 "hi there".toList .pending ∈
        introChunks 10 "hi there".toList ∧
      (Chunk.mk 0 "Introduction".toList 0 "hi there".toList .pending).chapter =
        "Introduction".toList :=
  ⟨by decide,
   (chapter_scenario_and_intro_label.2 10 "hi there".toList).2 _ (by decide)⟩

end Kuato

namespace Kuato

theorem chunkLoop_shape (cs : Nat) (t : List Char) :
    ∀ (fuel : Nat) (rem : List Char) (cci : Nat) (acc : List Chunk),
      ∃ m, chunkLoop cs t fuel rem cci acc = acc ++ m ∧
        ∀ j (hj : j < m.length),
          m[j].chunkIndex = acc.length + j ∧ m[j].chapter = t ∧
            m[j].chapterChunkIndex = cci + j ∧ m[j].status = .pending := by
  intro fuel
  induction fuel with
  | zero =>
    intro rem cci acc
    refine ⟨[], by simp [chunkLoop], ?_⟩
    intro j hj
    simp at hj
  | succ fuel ih =>
    intro rem cci acc
    simp only [chunkLoop]
    split
    · refine ⟨[], by simp, ?_⟩
      intro j hj
      simp at hj
    · split
      · refine ⟨[⟨acc.length, t, cci, jsTrim rem, .pending⟩], rfl, ?_⟩
        intro j hj
        simp only [List.length_singleton] at hj
        have hj0 : j = 0 := by omega
        subst hj0
        refine ⟨by simp, rfl, by simp, rfl⟩
      · rcases ih (rem.drop ((splitIndexInt rem cs + 1).toNat)) (cci + 1)
          (acc ++ [⟨acc.length, t, cci,
            jsTrim (rem.take ((splitIndexInt rem cs + 1).toNat)), .pending⟩]) with ⟨m, hm, hprops⟩
        refine ⟨⟨acc.length, t, cci,
          jsTrim (rem.take ((splitIndexInt rem cs + 1).toNat)), .pending⟩ :: m, ?_, ?_⟩
        · rw [hm, List.append_assoc, List.singleton_append]
        · intro j hj
          cases j with
          | zero => exact ⟨by simp, rfl, by simp, rfl⟩
          | succ j =>
            simp only [List.getElem_cons_succ]
            simp only [List.length_cons] at hj
            have hj' : j < m.length := by omega
            rcases hprops j hj' with ⟨h1, h2, h3, h4⟩
            rw [List.length_append, List.length_singleton] at h1
            exact ⟨by omega, h2, by omega, h4⟩

theorem chapterLoop_shape (cs : Nat) :
    ∀ (pieces : List (List Char)) (b : Bool) (t : List Char) (acc : List Chunk),
      ∃ m, chapterLoop cs pieces b t acc = acc ++ m ∧
        (∀ j (hj : j < m.length), m[j].chunkIndex = acc.length + j) ∧
        List.Chain' ActualCCPair m ∧
        (∀ c ∈ m.head?, c.chapterChunkIndex = 0) := by
  intro pieces
  induction pieces with
  | nil =>
    intro b t acc
    refine ⟨[], by simp [chapterLoop], ?_, List.chain'_nil, ?_⟩
    · intro j hj
      simp at hj
    · intro c hc
      simp at hc
  | cons piece rest ih =>
    intro b t acc
    simp only [chapterLoop]
    split
    · exact ih false (jsTrim piece) acc
    · rcases chunkLoop_shape cs t (jsTrim piece).length (jsTrim piece) 0 acc with ⟨m1, hm1, hp1⟩
      rcases ih true t (chunkLoop cs t (jsTrim piece).length (jsTrim piece) 0 acc) with ⟨m2, hm2, hidx2, hchain2, hhead2⟩
      refine ⟨m1 ++ m2, ?_, ?_, ?_, ?_⟩
      · rw [hm2, hm1, List.append_assoc]
      · intro j hj
        rw [List.length_append] at hj
        by_cases hj1 : j < m1.length
        · rw [List.getElem_append_left hj1]
          exact (hp1 j hj1).1
        · have hj2 : j - m1.length < m2.length := by omega
          rw [List.getElem_append_right (by omega)]
          have := hidx2 (j - m1.length) hj2
          rw [hm1, List.length_append] at this
          omega
      · -- Chain' within m1: consecutive chapterChunkIndex, same chapter
        have hchain1 : List.Chain' ActualCCPair m1 := by
          rw [List.chain'_iff_get]
          intro i hi
          rcases hp1 i (by omega) with ⟨_, hc1, hcc1, _⟩
          rcases hp1 (i + 1) (by omega) with ⟨_, hc2, hcc2, _⟩
          simp only [List.get_eq_getElem, Fin.val_mk]
          constructor
          · intro hne
            exact absurd (hc2.trans hc1.symm) hne
          · left
            omega
        refine List.Chain'.append hchain1 hchain2 ?_
        intro x hx y hy
        constructor
        · intro _
          exact hhead2 y hy
        · right
          exact hhead2 y hy
      · intro c hc
        cases m1 with
        | nil =>
          simp only [List.nil_append] at hc
          exact hhead2 c hc
        | cons c1 m1' =>
          simp only [List.cons_append, List.head?_cons, Option.mem_some_iff] at hc
          subst hc
          have := (hp1 0 (by simp)).2.2.1
          simpa using this

/-- C7 amended: across the whole book `chunkIndex` equals the chunk's
position — strictly increasing and contiguous from 0.  The first chunk of
the book has `chapterChunkIndex` 0, and between consecutive chunks the
`chapterChunkIndex` either increases by 1 or resets to 0; it always resets
when the chapter label changes, and it also resets at each detected heading
even when the repeated heading carries the *same* label, which is the one
behaviour the original claim ruled out. -/
theorem chunk_indices (cs : Nat) (text : List Char) :
    (∀ i (hi : i < (processBook cs text).length),
      (processBook cs text)[i].chunkIndex = i) ∧
    List.Chain' ActualCCPair (processBook cs text) ∧
    (∀ c ∈ (processBook cs text).head?, c.chapterChunkIndex = 0) := by
  rcases chapterLoop_shape cs (chaptersSplit text) false "Introduction".toList []
    with ⟨m, hm, hidx, hchain, hhead⟩
  unfold processBook
  rw [hm, List.nil_append]
  refine ⟨?_, hchain, hhead⟩
  intro i hi
  simpa using hidx i hi

/-- C7 counterexample: with the input
`"Chapter 1\nfoo\n\nChapter 1\nbar"` (the heading label repeats) the second
chunk belongs to the same chapter label as the first but its
`chapterChunkIndex` is 0, not 1: the per-chapter counter resets at each
heading occurrence, not per label. -/
theorem chunk_indices_cex :
    ¬ List.Chain' ClaimedCCPair
        (processBook 1000 "Chapter 1\nfoo\n\nChapter 1\nbar".toList) := by
  have he : processBook 1000 "Chapter 1\nfoo\n\nChapter 1\nbar".toList =
      [Chunk.mk 0 "Chapter 1".toList 0 "foo".toList .pending,
       Chunk.mk 1 "Chapter 1".toList 0 "bar".toList .pending] := by decide
  rw [he, List.chain'_pair]
  intro h
  exact absurd (h.1 rfl) (by decide)

/-- Witness for the amended C7 at a concrete book and position. -/
theorem chunk_indices_witness :
    ((processBook 1000 "Chapter 1\nfoo\n\nChapter 1\nbar".toList).get
        ⟨0, by decide⟩).chunkIndex = 0 :=
  (chunk_indices 1000 "Chapter 1\nfoo\n\nChapter 1\nbar".toList).1 0 (by decide)

end Kuato

namespace Kuato

theorem dropWhile_jsWs_filter (s : List Char) :
    (s.dropWhile jsWs).filter (fun c => !jsWs c) = s.filter (fun c => !jsWs c) := by
  induction s with
  | nil => rfl
  | cons c cs ih =>
    by_cases h : jsWs c = true
    · rw [List.dropWhile_cons_of_pos h, ih, List.filter_cons_of_neg (by simp [h])]
    · rw [List.dropWhile_cons_of_neg h]

theorem jsTrim_filter (s : List Char) :
    (jsTrim s).filter (fun c => !jsWs c) = s.filter (fun c => !jsWs c) := by
  unfold jsTrim
  rw [List.filter_reverse, dropWhile_jsWs_filter, List.filter_reverse,
    List.reverse_reverse, dropWhile_jsWs_filter]

theorem onlyWsRemoved_refl (s : List Char) : OnlyWsRemoved s s :=
  ⟨List.Sublist.refl s, rfl⟩

theorem onlyWsRemoved_trim (s : List Char) : OnlyWsRemoved s (jsTrim s) :=
  ⟨jsTrim_sublist s, jsTrim_filter s⟩

theorem onlyWsRemoved_append {a b x y : List Char}
    (h1 : OnlyWsRemoved a x) (h2 : OnlyWsRemoved b y) :
    OnlyWsRemoved (a ++ b) (x ++ y) :=
  ⟨h1.1.append h2.1, by rw [List.filter_append, List.filter_append, h1.2, h2.2]⟩

theorem onlyWsRemoved_comp {a b c : List Char}
    (h1 : OnlyWsRemoved a b) (h2 : OnlyWsRemoved b c) :
    OnlyWsRemoved a c :=
  ⟨h2.1.trans h1.1, h2.2.trans h1.2⟩

theorem chunkLoop_join (cs : Nat) (t : List Char) :
    ∀ (N fuel : Nat) (rem : List Char) (cci : Nat) (acc : List Chunk),
      rem.length ≤ N → rem.length ≤ fuel →
      ∃ m, chunkLoop cs t fuel rem cci acc = acc ++ m ∧
        OnlyWsRemoved rem ((m.map Chunk.content).flatten) := by
  intro N
  induction N with
  | zero =>
    intro fuel rem cci acc hN hf
    have hnil : rem = [] := List.length_eq_zero.mp (by omega)
    subst hnil
    refine ⟨[], ?_, ⟨List.nil_sublist _, rfl⟩⟩
    cases fuel <;> simp [chunkLoop]
  | succ N ih =>
    intro fuel rem cci acc hN hf
    by_cases h0 : rem.length = 0
    · have hnil : rem = [] := List.length_eq_zero.mp h0
      subst hnil
      refine ⟨[], ?_, ⟨List.nil_sublist _, rfl⟩⟩
      cases fuel <;> simp [chunkLoop]
    · obtain ⟨g, rfl⟩ : ∃ g, fuel = g + 1 := ⟨fuel - 1, by omega⟩
      simp only [chunkLoop]
      rw [if_neg h0]
      by_cases hle : rem.length ≤ cs
      · rw [if_pos hle]
        refine ⟨[⟨acc.length, t, cci, jsTrim rem, .pending⟩], rfl, ?_⟩
        simp only [List.map_cons, List.map_nil, List.flatten_cons, List.flatten_nil,
          List.append_nil]
        exact onlyWsRemoved_trim rem
      · rw [if_neg hle]
        have hsp := splitIndexInt_nonneg rem cs
        have hn1 : 1 ≤ (splitIndexInt rem cs + 1).toNat := by omega
        rcases ih g (rem.drop ((splitIndexInt rem cs + 1).toNat)) (cci + 1)
          (acc ++ [⟨acc.length, t, cci,
            jsTrim (rem.take ((splitIndexInt rem cs + 1).toNat)), .pending⟩])
          (by rw [List.length_drop]; omega) (by rw [List.length_drop]; omega)
          with ⟨m, hm, hws⟩
        refine ⟨⟨acc.length, t, cci,
          jsTrim (rem.take ((splitIndexInt rem cs + 1).toNat)), .pending⟩ :: m, ?_, ?_⟩
        · rw [hm, List.append_assoc, List.singleton_append]
        · simp only [List.map_cons, List.flatten_cons]
          have h1 := onlyWsRemoved_trim (rem.take ((splitIndexInt rem cs + 1).toNat))
          have h2 := onlyWsRemoved_append h1 hws
          rwa [List.take_append_drop] at h2

/-- C4 amended: for a text in which the chapter splitter detects no
heading (the split returns the whole text as one piece), concatenating all
chunk contents in order reproduces the text with only whitespace removed at
the chunk boundaries: the concatenation is a subsequence of the text and
agrees with it on every non-whitespace character.  (When a heading *is*
detected, the heading line and the blank line before it are also removed —
see the counterexample.) -/
theorem rejoin_reproduces (cs : Nat) (text : List Char)
    (h : chaptersSplit text = [text]) :
    OnlyWsRemoved text (((processBook cs text).map Chunk.content).flatten) := by
  unfold processBook
  rw [h]
  simp only [chapterLoop]
  rw [if_neg (by simp)]
  rcases chunkLoop_join cs "Introduction".toList (jsTrim text).length
      (jsTrim text).length (jsTrim text) 0 [] (Nat.le_refl _) (Nat.le_refl _)
    with ⟨m, hm, hws⟩
  rw [hm, List.nil_append]
  exact onlyWsRemoved_comp (onlyWsRemoved_trim text) hws

/-- C4 counterexample: on `"Hello\n\nChapter 1\nWorld"` the rejoined
chunk contents are `"HelloWorld"`, but the input's non-whitespace characters
are `"HelloChapter1World"`: the detected heading `"Chapter 1"` is removed
from the content stream, so more than boundary whitespace is lost. -/
theorem rejoin_reproduces_cex :
    ¬ OnlyWsRemoved "Hello\n\nChapter 1\nWorld".toList
        (((processBook 100 "Hello\n\nChapter 1\nWorld".toList).map
          Chunk.content).flatten) := by
  intro h
  exact absurd h.2 (by decide)

/-- Witness for the amended C4 on a concrete heading-free text. -/
theorem rejoin_reproduces_witness :
    chaptersSplit "ab cd".toList = ["ab cd".toList] ∧
      OnlyWsRemoved "ab cd".toList
        (((processBook 3 "ab cd".toList).map Chunk.content).flatten) :=
  ⟨by decide, rejoin_reproduces 3 "ab cd".toList (by decide)⟩

end Kuato

namespace Kuato

theorem findIdx?_shifted_eq_some_of {α : Type} (p : α → Bool) :
    ∀ (l : List α) (i : Nat) (hi : i < l.length),
      p l[i] = true → (∀ j (hj : j < l.length), j < i → p l[j] = false) →
      ∀ s, l.findIdx? p s = some (i + s) := by
  intro l
  induction l with
  | nil =>
    intro i hi
    simp at hi
  | cons a l ih =>
    intro i hi hp hprev s
    rw [List.findIdx?_cons]
    cases i with
    | zero =>
      simp only [List.getElem_cons_zero] at hp
      rw [if_pos hp, Nat.zero_add]
    | succ i =>
      have ha : p a = false := by
        have := hprev 0 (by simp) (by omega)
        simpa using this
      rw [if_neg (by simp [ha])]
      have hi' : i < l.length := by
        simpa using hi
      have hp' : p l[i] = true := by
        simpa using hp
      have hprev' : ∀ j (hj : j < l.length), j < i → p l[j] = false := by
        intro j hj hji
        have := hprev (j + 1) (by simpa using Nat.succ_lt_succ hj) (by omega)
        simpa using this
      rw [ih i hi' hp' hprev' (s + 1)]
      congr 1
      omega

theorem findIdx?_eq_some_of {α : Type} (p : α → Bool) (l : List α) (i : Nat)
    (hi : i < l.length) (hp : p l[i] = true)
    (hprev : ∀ j (hj : j < l.length), j < i → p l[j] = false) :
    l.findIdx? p = some i := by
  have := findIdx?_shifted_eq_some_of p l i hi hp hprev 0
  simpa using this

/-- C9: `updateBook` on an absent id returns the not-found signal and
leaves the library untouched; on a present id it replaces exactly the named
top-level fields of the first matching book (nested structures such as
`chunks` wholesale), keeps that book's other fields, keeps every other book,
and preserves the library's length and order. -/
theorem updateBook_spec (library : List Book) (bookId : List Char) (p : BookPatch) :
    ((∀ b ∈ library, b.id ≠ bookId) →
      updateBook library bookId p = (none, library)) ∧
    (∀ i (hi : i < library.length),
      library[i].id = bookId →
      (∀ j (hj : j < library.length), j < i → library[j].id ≠ bookId) →
      (updateBook library bookId p).1 = some (mergeBook library[i] p) ∧
      (updateBook library bookId p).2 = library.set i (mergeBook library[i] p) ∧
      (updateBook library bookId p).2.length = library.length ∧
      (∀ j (hj : j < library.length), j ≠ i →
        (updateBook library bookId p).2[j]? = some library[j]) ∧
      (mergeBook library[i] p).id = library[i].id ∧
      (∀ t, p.title? = some t → (mergeBook library[i] p).title = t) ∧
      (p.title? = none → (mergeBook library[i] p).title = library[i].title) ∧
      (∀ u, p.sourceUrl? = some u → (mergeBook library[i] p).sourceUrl = u) ∧
      (p.sourceUrl? = none →
        (mergeBook library[i] p).sourceUrl = library[i].sourceUrl) ∧
      (∀ c, p.chunks? = some c → (mergeBook library[i] p).chunks = c) ∧
      (p.chunks? = none → (mergeBook library[i] p).chunks = library[i].chunks) ∧
      (∀ v, p.lastSentChunk? = some v →
        (mergeBook library[i] p).lastSentChunk = v) ∧
      (p.lastSentChunk? = none →
        (mergeBook library[i] p).lastSentChunk = library[i].lastSentChunk)) := by
  constructor
  · intro habsent
    have hnone : library.findIdx? (fun b => b.id == bookId) = none := by
      rw [List.findIdx?_eq_none_iff]
      intro b hb
      simp only [beq_eq_false_iff_ne, ne_eq]
      exact habsent b hb
    unfold updateBook
    rw [hnone]
  · intro i hi hid hfirst
    have hsome : library.findIdx? (fun b => b.id == bookId) = some i := by
      apply findIdx?_eq_some_of (fun b => b.id == bookId) library i hi
      · simp only [beq_iff_eq]
        exact hid
      · intro j hj hji
        simp only [beq_eq_false_iff_ne, ne_eq]
        exact hfirst j hj hji
    have hgetD : library.getD i default = library[i] := by
      rw [List.getD_eq_getElem?_getD, List.getElem?_eq_getElem hi]
      rfl
    unfold updateBook
    rw [hsome]
    refine ⟨by simp [List.getElem?_eq_getElem hi], by simp [List.getElem?_eq_getElem hi], by simp, ?_, rfl, ?_, ?_, ?_, ?_, ?_, ?_, ?_, ?_⟩
    · intro j hj hji
      rw [List.getElem?_set_ne (by omega), List.getElem?_eq_getElem hj]
    · intro t ht
      simp [mergeBook, ht]
    · intro ht
      simp [mergeBook, ht]
    · intro u hu
      simp [mergeBook, hu]
    · intro hu
      simp [mergeBook, hu]
    · intro c hc
      simp [mergeBook, hc]
    · intro hc
      simp [mergeBook, hc]
    · intro v hv
      simp [mergeBook, hv]
    · intro hv
      simp [mergeBook, hv]

/-- Witness for C9 at a one-book library and a title-only patch. -/
theorem updateBook_spec_witness :
    (updateBook [Book.mk "b1".toList "T".toList "u".toList [] (-1)] "b1".toList
        (BookPatch.mk (some "T2".toList) none none none)).1 =
      some (mergeBook (Book.mk "b1".toList "T".toList "u".toList [] (-1))
        (BookPatch.mk (some "T2".toList) none none none)) :=
  ((updateBook_spec [Book.mk "b1".toList "T".toList "u".toList [] (-1)] "b1".toList
      (BookPatch.mk (some "T2".toList) none none none)).2 0 (by decide) (by decide)
    (fun j hj hji => absurd hji (by omega))).1

end Kuato

namespace Kuato

theorem sendChunk_lastSent_le (st : SeqState) (i : Nat) (out : DispatchOutcome) :
    st.lastSentChunk ≤ (sendChunk st i out).lastSentChunk := by
  unfold sendChunk
  cases out <;> simp [le_max_left]

theorem stepOp_lastSent_le (st : SeqState) (op : SeqOp) :
    st.lastSentChunk ≤ (stepOp st op).lastSentChunk := by
  cases op with
  | opSendNext out =>
    unfold stepOp sendNext
    cases findFirstUnsent st.statuses with
    | none => exact le_refl _
    | some i => exact sendChunk_lastSent_le st i out
  | opRetry i out =>
    exact sendChunk_lastSent_le st i out

/-- C8: `lastSentChunk` never decreases across any sequence of `sendNext`
and `retry` operations, whatever the dispatch outcomes; and a `retry` of an
already-sent chunk whose index is below the current `lastSentChunk`
re-dispatches exactly that chunk while leaving `lastSentChunk` unchanged. -/
theorem lastSent_monotone :
    (∀ (st : SeqState) (ops : List SeqOp),
      st.lastSentChunk ≤ (runOps st ops).lastSentChunk) ∧
    (∀ (st : SeqState) (i : Nat) (out : DispatchOutcome),
      st.statuses[i]? = some .sent → (i : Int) < st.lastSentChunk →
        (retry st i out).lastSentChunk = st.lastSentChunk ∧
        (retry st i out).dispatched = st.dispatched ++ [i]) := by
  constructor
  · intro st ops
    induction ops generalizing st with
    | nil => exact le_refl _
    | cons op ops ih =>
      exact le_trans (stepOp_lastSent_le st op) (ih (stepOp st op))
  · intro st i out hsent hlt
    unfold retry sendChunk
    cases out <;> simp <;> omega

/-- Witness for C8's retry clause at a concrete state. -/
theorem lastSent_monotone_witness :
    (retry (SeqState.mk [.sent, .sent] 1 false []) 0 .delivered).lastSentChunk =
        (SeqState.mk [.sent, .sent] 1 false [] : SeqState).lastSentChunk ∧
      (retry (SeqState.mk [.sent, .sent] 1 false []) 0 .delivered).dispatched =
        (SeqState.mk [.sent, .sent] 1 false [] : SeqState).dispatched ++ [0] :=
  (lastSent_monotone.2 (SeqState.mk [.sent, .sent] 1 false []) 0 .delivered
    (by decide) (by decide))

/-- C3 counterexample: start in send-all mode with two pending chunks
and let the pastebin upload fail for chunk 0.  The chunk stays `pending` and
`lastSentChunk` is unchanged — but `isSendingAll` is still `true`, and when a
reply-observed signal later fires, `sendNextChunkInSequence` re-selects and
dispatches a chunk (the dispatch log grows to `[0, 0]`), contradicting the
claim that auto-advance is disabled so that no further chunk is
auto-selected. -/
theorem dispatch_failure_cex :
    ((sendChunk (SeqState.mk [.pending, .pending] (-1) true []) 0
        .uploadFailed).isSendingAll = true) ∧
    ((sendNextChunkInSequence
        (sendChunk (SeqState.mk [.pending, .pending] (-1) true []) 0 .uploadFailed)
        .delivered).dispatched = [0, 0]) := by
  decide

/-- C3 amended: when the dispatch of a chunk fails at any step (upload
failure, missing chat UI, or a send button that never enables), the chunk's
status stays `pending` and `lastSentChunk` is unchanged — but the send-all
mode flag is also left *unchanged*, not disabled: the dispatch path only
appends the attempt to the log, so after a failure in send-all mode a later
reply-observed signal will auto-select the same chunk again. -/
theorem dispatch_failure_state (st : SeqState) (i : Nat) (out : DispatchOutcome)
    (h : out ≠ .delivered) :
    (sendChunk st i out).statuses = st.statuses ∧
    (sendChunk st i out).lastSentChunk = st.lastSentChunk ∧
    (sendChunk st i out).isSendingAll = st.isSendingAll ∧
    (sendChunk st i out).dispatched = st.dispatched ++ [i] := by
  unfold sendChunk
  cases out with
  | delivered => exact absurd rfl h
  | uploadFailed => exact ⟨rfl, rfl, rfl, rfl⟩
  | chatUiMissing => exact ⟨rfl, rfl, rfl, rfl⟩
  | sendButtonStuck => exact ⟨rfl, rfl, rfl, rfl⟩

/-- Witness for the amended C3 at a concrete failing dispatch. -/
theorem dispatch_failure_state_witness :
    (sendChunk (SeqState.mk [.pending] (-1) true []) 0 .uploadFailed).statuses =
        [ChunkStatus.pending] ∧
      (sendChunk (SeqState.mk [.pending] (-1) true []) 0
          .uploadFailed).lastSentChunk = -1 ∧
      (sendChunk (SeqState.mk [.pending] (-1) true []) 0
          .uploadFailed).isSendingAll = true ∧
      (sendChunk (SeqState.mk [.pending] (-1) true []) 0 .uploadFailed).dispatched =
        [] ++ [0] :=
  dispatch_failure_state (SeqState.mk [.pending] (-1) true []) 0 .uploadFailed
    (by decide)

end Kuato
